import Mathlib

/-!
Verification of the two pipeline stages of the TE-enrichment repository.

Stage A is `format_repeatmasker_output` of `scripts/1_format_RM.py`; Stage B
is `add_family_column` of `scripts/2_add_TEclass.py`.  Text files are
modelled as lists of lines, a line being a `List Char` without its trailing
newline.  Python's whitespace notion (for `str.strip`, `str.split()` and the
regex class `\s`) is modelled over the ASCII whitespace characters.
-/

/-- Whitespace test matching Python's `str.strip()` / regex `\s` on ASCII
input: space, tab, newline, carriage return, vertical tab, form feed. -/
def pySpace (c : Char) : Bool :=
  c = ' ' || c = '\t' || c = '\n' || c = '\r' || c = Char.ofNat 11 || c = Char.ofNat 12

/-- Negation of `pySpace`, used as a `takeWhile`/`dropWhile` predicate. -/
def notWS (c : Char) : Bool := !pySpace c

/-- Removal of trailing whitespace (the right half of Python's `str.strip()`). -/
def dropTrail (l : List Char) : List Char :=
  (l.reverse.dropWhile pySpace).reverse

/-- Python's `str.strip()`: remove leading and trailing whitespace. -/
def stripChars (l : List Char) : List Char :=
  dropTrail (l.dropWhile pySpace)

/-- Python's `str.split('\t')`: split at every tab, keeping empty fields;
the empty string yields the single field `[]`. -/
def splitTab : List Char → List (List Char)
  | [] => [[]]
  | c :: r =>
    if c = '\t' then [] :: splitTab r
    else
      match splitTab r with
      | [] => [[c]]
      | w :: ws => (c :: w) :: ws

/-- Embedding of `re.sub(r'\s+', '\t', ·)`: replace every maximal run of
one-or-more whitespace characters by a single tab. -/
def collapseWS : List Char → List Char
  | [] => []
  | [c] => if pySpace c then ['\t'] else [c]
  | c :: d :: r =>
    if pySpace c then
      if pySpace d then collapseWS (d :: r)
      else '\t' :: collapseWS (d :: r)
    else c :: collapseWS (d :: r)

/-- Helper for `pySplitWS`: extend the first word by one character. -/
def wordCons (c : Char) (ws : List (List Char)) : List (List Char) :=
  match ws with
  | [] => [[c]]
  | w :: ws2 => (c :: w) :: ws2

/-- Python's whitespace split `str.split()`: the maximal runs of
non-whitespace characters, in order; leading/trailing whitespace ignored. -/
def pySplitWS : List Char → List (List Char)
  | [] => []
  | c :: r =>
    if pySpace c then pySplitWS r
    else
      match r with
      | [] => [[c]]
      | d :: _ => if pySpace d then [c] :: pySplitWS r else wordCons c (pySplitWS r)

section BasicLemmas

/-- The head of a `dropWhile p` result never satisfies `p`. -/
theorem head?_dropWhile_false (p : Char → Bool) :
    ∀ (l : List Char) (a : Char), (l.dropWhile p).head? = some a → p a = false := by
  intro l
  induction l with
  | nil => intro a h; simp at h
  | cons c r ih =>
    intro a h
    by_cases hc : p c
    · rw [List.dropWhile_cons_of_pos hc] at h; exact ih a h
    · rw [List.dropWhile_cons_of_neg hc] at h
      simp at h
      subst h
      exact Bool.eq_false_iff.mpr hc

/-- Decomposition of `dropTrail`: the input is the result followed by a
run of whitespace. -/
theorem dropTrail_decomp (l : List Char) :
    ∃ sp, l = dropTrail l ++ sp ∧ ∀ c ∈ sp, pySpace c = true := by
  refine ⟨(l.reverse.takeWhile pySpace).reverse, ?_, ?_⟩
  · have h1 : l.reverse.takeWhile pySpace ++ l.reverse.dropWhile pySpace = l.reverse :=
      List.takeWhile_append_dropWhile pySpace l.reverse
    calc l = l.reverse.reverse := (l.reverse_reverse).symm
      _ = (l.reverse.takeWhile pySpace ++ l.reverse.dropWhile pySpace).reverse := by rw [h1]
      _ = (l.reverse.dropWhile pySpace).reverse ++ (l.reverse.takeWhile pySpace).reverse := by
          rw [List.reverse_append]
      _ = dropTrail l ++ (l.reverse.takeWhile pySpace).reverse := rfl
  · intro c hc
    rw [List.mem_reverse] at hc
    exact List.mem_takeWhile_imp hc

/-- The last element of a `dropTrail` result is not whitespace. -/
theorem getLast?_dropTrail_false (l : List Char) (a : Char) :
    (dropTrail l).getLast? = some a → pySpace a = false := by
  intro h
  rw [dropTrail, List.getLast?_reverse] at h
  exact head?_dropWhile_false pySpace l.reverse a h

/-- A nonempty `dropTrail` result starts with the head of its input. -/
theorem head?_dropTrail (l : List Char) (a : Char)
    (h : (dropTrail l).head? = some a) : l.head? = some a := by
  obtain ⟨sp, hdec, -⟩ := dropTrail_decomp l
  rw [hdec, List.head?_append, h]
  rfl

/-- The head of a stripped line is not whitespace. -/
theorem stripChars_head_false (l : List Char) (a : Char)
    (h : (stripChars l).head? = some a) : pySpace a = false := by
  have h2 := head?_dropTrail _ _ h
  exact head?_dropWhile_false pySpace l a h2

/-- The last character of a stripped line is not whitespace. -/
theorem stripChars_getLast_false (l : List Char) (a : Char)
    (h : (stripChars l).getLast? = some a) : pySpace a = false :=
  getLast?_dropTrail_false _ _ h

/-- A line whose head and last characters are not whitespace is unchanged
by stripping. -/
theorem stripChars_eq_self (t : List Char)
    (hh : ∀ a, t.head? = some a → pySpace a = false)
    (hl : ∀ a, t.getLast? = some a → pySpace a = false) :
    stripChars t = t := by
  have hdw : t.dropWhile pySpace = t := by
    cases t with
    | nil => rfl
    | cons c r =>
      have := hh c rfl
      rw [List.dropWhile_cons_of_neg (by simp [this])]
  rw [stripChars, hdw, dropTrail]
  have hrev : t.reverse.dropWhile pySpace = t.reverse := by
    cases hr : t.reverse with
    | nil => rfl
    | cons c r =>
      have hc : t.getLast? = some c := by
        rw [List.getLast?_eq_head?_reverse, hr]; rfl
      have := hl c hc
      rw [List.dropWhile_cons_of_neg (by simp [this])]
  rw [hrev, List.reverse_reverse]

/-- Suffixes share the last element with the whole list. -/
theorem getLast?_of_suffix {l₁ l₂ : List Char} (h : l₂ <:+ l₁) (hne : l₂ ≠ []) :
    l₂.getLast? = l₁.getLast? := by
  obtain ⟨w, rfl⟩ := h
  rw [List.getLast?_append]
  cases h2 : l₂.getLast? with
  | none => exact absurd (List.getLast?_eq_none_iff.mp h2) hne
  | some a => rfl

end BasicLemmas

section CollapseLemmas

/-- Collapsing starting at a non-whitespace character keeps it. -/
theorem collapseWS_cons_notWS (c : Char) (r : List Char) (hc : pySpace c = false) :
    collapseWS (c :: r) = c :: collapseWS r := by
  cases r with
  | nil => simp [collapseWS, hc]
  | cons d r2 => simp [collapseWS, hc]

/-- Collapsing starting at a whitespace character emits one tab for the
whole leading whitespace run. -/
theorem collapseWS_cons_WS (c : Char) (r : List Char) (hc : pySpace c = true) :
    collapseWS (c :: r) = '\t' :: collapseWS (r.dropWhile pySpace) := by
  induction r generalizing c with
  | nil => simp [collapseWS, hc]
  | cons d r2 ih =>
    by_cases hd : pySpace d
    · have h1 : collapseWS (c :: d :: r2) = collapseWS (d :: r2) := by
        simp [collapseWS, hc, hd]
      rw [h1, ih d hd, List.dropWhile_cons_of_pos hd]
    · have hd' : pySpace d = false := Bool.eq_false_iff.mpr hd
      have h1 : collapseWS (c :: d :: r2) = '\t' :: collapseWS (d :: r2) := by
        simp [collapseWS, hc, hd']
      rw [h1, List.dropWhile_cons_of_neg hd]

/-- Collapsing never empties a nonempty line. -/
theorem collapseWS_ne_nil (c : Char) (r : List Char) : collapseWS (c :: r) ≠ [] := by
  by_cases hc : pySpace c
  · rw [collapseWS_cons_WS c r hc]; simp
  · rw [collapseWS_cons_notWS c r (Bool.eq_false_iff.mpr hc)]; simp

/-- Collapsing passes over a whitespace-free block unchanged. -/
theorem collapseWS_append_notWS (w r : List Char) (hw : ∀ a ∈ w, pySpace a = false) :
    collapseWS (w ++ r) = w ++ collapseWS r := by
  induction w with
  | nil => rfl
  | cons a w2 ih =>
    have ha : pySpace a = false := hw a (by simp)
    rw [List.cons_append, collapseWS_cons_notWS a (w2 ++ r) ha,
      ih (fun b hb => hw b (by simp [hb]))]
    rfl

/-- Collapsing whitespace runs is idempotent. -/
theorem collapseWS_idem_aux : ∀ (n : Nat) (t : List Char), t.length ≤ n →
    collapseWS (collapseWS t) = collapseWS t := by
  intro n
  induction n with
  | zero =>
    intro t ht
    have : t = [] := List.length_eq_zero.mp (Nat.le_zero.mp ht)
    subst this; rfl
  | succ n ih =>
    intro t ht
    cases t with
    | nil => rfl
    | cons c r =>
      by_cases hc : pySpace c
      · rw [collapseWS_cons_WS c r hc]
        have hlen : (r.dropWhile pySpace).length ≤ n := by
          have h1 : (r.dropWhile pySpace).length ≤ r.length :=
            (List.dropWhile_sublist pySpace).length_le
          have h2 : r.length ≤ n := Nat.le_of_succ_le_succ ht
          exact Nat.le_trans h1 h2
        cases hu : r.dropWhile pySpace with
        | nil => simp [collapseWS]
        | cons e r2 =>
          have he : pySpace e = false := head?_dropWhile_false pySpace r e (by rw [hu]; rfl)
          have h3 : collapseWS (e :: r2) = e :: collapseWS r2 := collapseWS_cons_notWS e r2 he
          have htab : pySpace '\t' = true := by decide
          rw [h3, collapseWS_cons_WS '\t' (e :: collapseWS r2) htab,
            List.dropWhile_cons_of_neg (by simp [he]), ← h3, ← hu, ih _ hlen, hu]
      · have hc' : pySpace c = false := Bool.eq_false_iff.mpr hc
        rw [collapseWS_cons_notWS c r hc']
        cases hr : collapseWS r with
        | nil => simp [collapseWS, hc']
        | cons e r2 =>
          have hlen : r.length ≤ n := Nat.le_of_succ_le_succ ht
          rw [collapseWS_cons_notWS c (e :: r2) hc', ← hr, ih _ hlen]

/-- Collapsing whitespace runs is idempotent. -/
theorem collapseWS_idem (t : List Char) : collapseWS (collapseWS t) = collapseWS t :=
  collapseWS_idem_aux t.length t (Nat.le_refl _)

/-- Collapsing preserves a non-whitespace last character. -/
theorem collapseWS_getLast_false : ∀ (n : Nat) (t : List Char), t.length ≤ n →
    (∀ a, t.getLast? = some a → pySpace a = false) →
    ∀ a, (collapseWS t).getLast? = some a → pySpace a = false := by
  intro n
  induction n with
  | zero =>
    intro t ht _ a ha
    have : t = [] := List.length_eq_zero.mp (Nat.le_zero.mp ht)
    subst this; simp [collapseWS] at ha
  | succ n ih =>
    intro t ht hl a ha
    cases t with
    | nil => simp [collapseWS] at ha
    | cons c r =>
      by_cases hc : pySpace c
      · rw [collapseWS_cons_WS c r hc] at ha
        cases hu : r.dropWhile pySpace with
        | nil =>
          exfalso
          have hall : ∀ x ∈ r, pySpace x = true := List.dropWhile_eq_nil_iff.mp hu
          cases hz : (c :: r).getLast? with
          | none => simp at hz
          | some z =>
            have hzmem : z ∈ c :: r := List.mem_of_getLast?_eq_some hz
            have hzs : pySpace z = true := by
              rcases List.mem_cons.mp hzmem with h | h
              · exact h ▸ hc
              · exact hall z h
            exact absurd hzs (by simp [hl z hz])
        | cons e r2 =>
          rw [hu] at ha
          have hne : collapseWS (e :: r2) ≠ [] := collapseWS_ne_nil e r2
          rw [List.getLast?_cons] at ha
          cases hg : (collapseWS (e :: r2)).getLast? with
          | none => exact absurd (List.getLast?_eq_none_iff.mp hg) hne
          | some b =>
            rw [hg] at ha
            simp at ha
            subst ha
            have hsuf : (e :: r2) <:+ (c :: r) := by
              rw [← hu]
              exact (List.dropWhile_suffix pySpace).trans (List.suffix_cons c r)
            have hlast : (e :: r2).getLast? = (c :: r).getLast? :=
              getLast?_of_suffix hsuf (by simp)
            have hlen : (e :: r2).length ≤ n := by
              have h1 : (e :: r2).length ≤ r.length := by
                rw [← hu]; exact (List.dropWhile_sublist pySpace).length_le
              exact Nat.le_trans h1 (Nat.le_of_succ_le_succ ht)
            exact ih (e :: r2) hlen (fun x hx => hl x (hlast ▸ hx)) b hg
      · have hc' : pySpace c = false := Bool.eq_false_iff.mpr hc
        rw [collapseWS_cons_notWS c r hc'] at ha
        cases hr : collapseWS r with
        | nil =>
          rw [hr] at ha
          simp at ha
          subst ha
          exact hc'
        | cons e r2 =>
          rw [hr, List.getLast?_cons] at ha
          cases hg : (e :: r2).getLast? with
          | none => simp at hg
          | some b =>
            rw [hg] at ha
            simp at ha
            subst ha
            cases r with
            | nil => simp [collapseWS] at hr
            | cons d r3 =>
              have hlast : (d :: r3).getLast? = (c :: d :: r3).getLast? := by
                rw [List.getLast?_cons_cons]
              have hlen : (d :: r3).length ≤ n := Nat.le_of_succ_le_succ ht
              exact ih (d :: r3) hlen (fun x hx => hl x (hlast ▸ hx)) b (hr ▸ hg)

end CollapseLemmas

section SplitLemmas

/-- A non-whitespace character is not a tab. -/
theorem ne_tab_of_notWS {a : Char} (h : pySpace a = false) : a ≠ '\t' := by
  intro h2
  subst h2
  simp [pySpace] at h

/-- Whitespace split skips a leading whitespace character. -/
theorem pySplitWS_cons_WS (c : Char) (r : List Char) (hc : pySpace c = true) :
    pySplitWS (c :: r) = pySplitWS r := by
  simp [pySplitWS, hc]

/-- Whitespace split at a non-whitespace character produces the maximal
word starting there, followed by the split of the remainder. -/
theorem pySplitWS_cons_notWS (c : Char) (r : List Char) (hc : pySpace c = false) :
    pySplitWS (c :: r) = (c :: r.takeWhile notWS) :: pySplitWS (r.dropWhile notWS) := by
  induction r generalizing c with
  | nil => simp [pySplitWS, hc]
  | cons d r2 ih =>
    by_cases hd : pySpace d
    · have h1 : pySplitWS (c :: d :: r2) = [c] :: pySplitWS (d :: r2) := by
        simp [pySplitWS, hc, hd]
      rw [h1, List.takeWhile_cons_of_neg (by simp [notWS, hd]),
        List.dropWhile_cons_of_neg (by simp [notWS, hd])]
    · have hd' : pySpace d = false := Bool.eq_false_iff.mpr hd
      have h2 := ih d hd'
      have h1 : pySplitWS (c :: d :: r2) = wordCons c (pySplitWS (d :: r2)) := by
        simp [pySplitWS, hc, hd']
      rw [h1, h2]
      simp only [wordCons]
      rw [List.takeWhile_cons_of_pos (by simp [notWS, hd']),
        List.dropWhile_cons_of_pos (by simp [notWS, hd'])]

/-- An all-whitespace line splits into no words. -/
theorem pySplitWS_allWS (s : List Char) (h : ∀ c ∈ s, pySpace c = true) :
    pySplitWS s = [] := by
  induction s with
  | nil => rfl
  | cons c r ih =>
    rw [pySplitWS_cons_WS c r (h c (by simp))]
    exact ih (fun x hx => h x (by simp [hx]))

/-- Dropping leading whitespace does not change the whitespace split. -/
theorem pySplitWS_dropWhileWS (s : List Char) :
    pySplitWS (s.dropWhile pySpace) = pySplitWS s := by
  induction s with
  | nil => rfl
  | cons c r ih =>
    by_cases hc : pySpace c
    · rw [List.dropWhile_cons_of_pos hc, pySplitWS_cons_WS c r hc]
      exact ih
    · rw [List.dropWhile_cons_of_neg hc]

/-- A `takeWhile` over an all-true block passes it through. -/
theorem takeWhile_append_all (q : Char → Bool) (w z : List Char)
    (h : ∀ a ∈ w, q a = true) : (w ++ z).takeWhile q = w ++ z.takeWhile q := by
  induction w with
  | nil => rfl
  | cons a w2 ih =>
    rw [List.cons_append, List.takeWhile_cons_of_pos (h a (by simp)),
      ih (fun b hb => h b (by simp [hb]))]
    rfl

/-- A `dropWhile` over an all-true block removes it. -/
theorem dropWhile_append_all (q : Char → Bool) (w z : List Char)
    (h : ∀ a ∈ w, q a = true) : (w ++ z).dropWhile q = z.dropWhile q := by
  induction w with
  | nil => rfl
  | cons a w2 ih =>
    rw [List.cons_append, List.dropWhile_cons_of_pos (h a (by simp))]
    exact ih (fun b hb => h b (by simp [hb]))

/-- Appending trailing whitespace does not change the whitespace split. -/
theorem pySplitWS_append_WS_aux : ∀ (n : Nat) (s sp : List Char), s.length ≤ n →
    (∀ c ∈ sp, pySpace c = true) → pySplitWS (s ++ sp) = pySplitWS s := by
  intro n
  induction n with
  | zero =>
    intro s sp ht hsp
    have : s = [] := List.length_eq_zero.mp (Nat.le_zero.mp ht)
    subst this
    exact pySplitWS_allWS sp hsp
  | succ n ih =>
    intro s sp ht hsp
    cases s with
    | nil => exact pySplitWS_allWS sp hsp
    | cons c r =>
      by_cases hc : pySpace c
      · rw [List.cons_append, pySplitWS_cons_WS c (r ++ sp) hc, pySplitWS_cons_WS c r hc]
        exact ih r sp (Nat.le_of_succ_le_succ ht) hsp
      · have hc' : pySpace c = false := Bool.eq_false_iff.mpr hc
        rw [List.cons_append, pySplitWS_cons_notWS c (r ++ sp) hc',
          pySplitWS_cons_notWS c r hc']
        have hwall : ∀ a ∈ r.takeWhile notWS, notWS a = true :=
          fun a ha => List.mem_takeWhile_imp ha
        cases hdv : r.dropWhile notWS with
        | nil =>
          have hall : ∀ x ∈ r, notWS x = true := List.dropWhile_eq_nil_iff.mp hdv
          have htk : r.takeWhile notWS = r := by
            have h1 := List.takeWhile_append_dropWhile notWS r
            rw [hdv, List.append_nil] at h1
            exact h1
          have hsptk : sp.takeWhile notWS = [] := by
            cases sp with
            | nil => rfl
            | cons e sp2 =>
              have : notWS e = false := by simp [notWS, hsp e (by simp)]
              rw [List.takeWhile_cons_of_neg (by simp [this])]
          have hspdr : sp.dropWhile notWS = sp := by
            cases sp with
            | nil => rfl
            | cons e sp2 =>
              have : notWS e = false := by simp [notWS, hsp e (by simp)]
              rw [List.dropWhile_cons_of_neg (by simp [this])]
          rw [takeWhile_append_all notWS r sp hall, hsptk, List.append_nil,
            dropWhile_append_all notWS r sp hall, hspdr, htk,
            pySplitWS_allWS sp hsp]
          rfl
        | cons m rest =>
          have hm : notWS m = false :=
            head?_dropWhile_false notWS r m (by rw [hdv]; rfl)
          have hrdec : r = r.takeWhile notWS ++ m :: rest := by
            have h1 := List.takeWhile_append_dropWhile notWS r
            rw [hdv] at h1
            exact h1.symm
          have htk2 : (r ++ sp).takeWhile notWS = r.takeWhile notWS := by
            conv_lhs => rw [hrdec]
            rw [List.append_assoc, List.cons_append,
              takeWhile_append_all notWS (r.takeWhile notWS) (m :: (rest ++ sp)) hwall,
              List.takeWhile_cons_of_neg (by simp [hm]), List.append_nil]
          have hdr2 : (r ++ sp).dropWhile notWS = m :: (rest ++ sp) := by
            conv_lhs => rw [hrdec]
            rw [List.append_assoc, List.cons_append,
              dropWhile_append_all notWS (r.takeWhile notWS) (m :: (rest ++ sp)) hwall,
              List.dropWhile_cons_of_neg (by simp [hm])]
          have hlen : (m :: rest).length ≤ n := by
            have h1 : (m :: rest).length ≤ r.length := by
              rw [← hdv]
              exact (List.dropWhile_sublist notWS).length_le
            have h2 : r.length + 1 ≤ n + 1 := ht
            omega
          rw [htk2, hdr2, ← List.cons_append]
          rw [ih (m :: rest) sp hlen hsp]

/-- Appending trailing whitespace does not change the whitespace split. -/
theorem pySplitWS_append_WS (s sp : List Char) (hsp : ∀ c ∈ sp, pySpace c = true) :
    pySplitWS (s ++ sp) = pySplitWS s :=
  pySplitWS_append_WS_aux s.length s sp (Nat.le_refl _) hsp

/-- Stripping a line does not change its whitespace split. -/
theorem pySplitWS_strip (s : List Char) : pySplitWS (stripChars s) = pySplitWS s := by
  obtain ⟨sp, hdec, hsp⟩ := dropTrail_decomp (s.dropWhile pySpace)
  have h1 : pySplitWS (s.dropWhile pySpace) = pySplitWS (stripChars s) := by
    conv_lhs => rw [hdec]
    exact pySplitWS_append_WS _ sp hsp
  rw [← h1, pySplitWS_dropWhileWS]

end SplitLemmas

section SplitTabLemmas

/-- Tab-splitting never yields an empty field list. -/
theorem splitTab_ne_nil : ∀ s : List Char, splitTab s ≠ [] := by
  intro s
  cases s with
  | nil => simp [splitTab]
  | cons c r =>
    by_cases hc : c = '\t'
    · simp [splitTab, hc]
    · simp only [splitTab, hc, if_false]
      cases splitTab r with
      | nil => simp
      | cons w ws => simp

/-- A tab-free line is a single field. -/
theorem splitTab_no_tab : ∀ s : List Char, '\t' ∉ s → splitTab s = [s] := by
  intro s
  induction s with
  | nil => intro _; rfl
  | cons c r ih =>
    intro h
    have hc : c ≠ '\t' := fun h2 => h (h2 ▸ List.mem_cons_self c r)
    have hr : '\t' ∉ r := fun h2 => h (List.mem_cons_of_mem c h2)
    simp only [splitTab, hc, if_false]
    rw [ih hr]

/-- Tab-splitting peels off a tab-free field before a tab. -/
theorem splitTab_append_tab : ∀ (a b : List Char), '\t' ∉ a →
    splitTab (a ++ '\t' :: b) = a :: splitTab b := by
  intro a
  induction a with
  | nil => intro b _; simp [splitTab]
  | cons c a2 ih =>
    intro b h
    have hc : c ≠ '\t' := fun h2 => h (h2 ▸ List.mem_cons_self c a2)
    have ha : '\t' ∉ a2 := fun h2 => h (List.mem_cons_of_mem c h2)
    rw [List.cons_append]
    simp only [splitTab, hc, if_false]
    rw [ih b ha]

end SplitTabLemmas

section Bridge

/-- Words produced by `takeWhile notWS` contain no whitespace. -/
theorem takeWhile_notWS_no_tab (r : List Char) : '\t' ∉ r.takeWhile notWS := by
  intro hmem
  have := List.mem_takeWhile_imp hmem
  simp [notWS, pySpace] at this

/-- On a stripped nonempty line, splitting the whitespace-collapsed line at
tabs yields exactly the whitespace-delimited tokens of the line. -/
theorem splitTab_collapseWS_aux : ∀ (n : Nat) (t : List Char), t.length ≤ n →
    (∀ a, t.head? = some a → pySpace a = false) →
    (∀ a, t.getLast? = some a → pySpace a = false) →
    t ≠ [] → splitTab (collapseWS t) = pySplitWS t := by
  intro n
  induction n with
  | zero =>
    intro t ht _ _ hne
    exact absurd (List.length_eq_zero.mp (Nat.le_zero.mp ht)) hne
  | succ n ih =>
    intro t ht hh hl hne
    cases t with
    | nil => exact absurd rfl hne
    | cons c r =>
      have hc : pySpace c = false := hh c rfl
      have hctab : c ≠ '\t' := ne_tab_of_notWS hc
      have hwall : ∀ a ∈ r.takeWhile notWS, pySpace a = false := by
        intro a ha
        have := List.mem_takeWhile_imp ha
        simpa [notWS] using this
      rw [collapseWS_cons_notWS c r hc, pySplitWS_cons_notWS c r hc]
      have hrdec : r.takeWhile notWS ++ r.dropWhile notWS = r :=
        List.takeWhile_append_dropWhile notWS r
      cases hdv : r.dropWhile notWS with
      | nil =>
        have htk : r.takeWhile notWS = r := by
          have h1 := hrdec
          rw [hdv, List.append_nil] at h1
          exact h1
        have hcol : collapseWS r = r := by
          have h2 := collapseWS_append_notWS (r.takeWhile notWS) [] hwall
          simp only [List.append_nil] at h2
          rw [← htk, h2]
          simp [collapseWS]
        have hnotab : '\t' ∉ c :: r := by
          intro hmem
          rcases List.mem_cons.mp hmem with h | h
          · exact hctab h.symm
          · rw [← htk] at h
            exact takeWhile_notWS_no_tab r h
        rw [hcol, splitTab_no_tab (c :: r) hnotab, htk]
        rfl
      | cons m rest =>
        have hm : notWS m = false := head?_dropWhile_false notWS r m (by rw [hdv]; rfl)
        have hmws : pySpace m = true := by simpa [notWS] using hm
        have hrdec2 : r = r.takeWhile notWS ++ m :: rest := by
          rw [hdv] at hrdec
          exact hrdec.symm
        have hcolr : collapseWS r =
            r.takeWhile notWS ++ '\t' :: collapseWS (rest.dropWhile pySpace) := by
          conv_lhs => rw [hrdec2]
          rw [collapseWS_append_notWS (r.takeWhile notWS) (m :: rest) hwall,
            collapseWS_cons_WS m rest hmws]
        have hsplit : splitTab (c :: (r.takeWhile notWS ++
            '\t' :: collapseWS (rest.dropWhile pySpace))) =
            (c :: r.takeWhile notWS) :: splitTab (collapseWS (rest.dropWhile pySpace)) := by
          rw [← List.cons_append]
          refine splitTab_append_tab (c :: r.takeWhile notWS) _ ?_
          intro hmem
          rcases List.mem_cons.mp hmem with h | h
          · exact hctab h.symm
          · exact takeWhile_notWS_no_tab r h
        rw [hcolr, hsplit]
        have hsufmr : (m :: rest) <:+ (c :: r) := by
          rw [← hdv]
          exact (List.dropWhile_suffix notWS).trans (List.suffix_cons c r)
        cases hu : rest.dropWhile pySpace with
        | nil =>
          exfalso
          have hallrest : ∀ x ∈ rest, pySpace x = true := List.dropWhile_eq_nil_iff.mp hu
          cases hz : (m :: rest).getLast? with
          | none => simp at hz
          | some z =>
            have hz2 : (c :: r).getLast? = some z := by
              rw [← getLast?_of_suffix hsufmr (by simp), hz]
            have hzmem : z ∈ m :: rest := List.mem_of_getLast?_eq_some hz
            have hzs : pySpace z = true := by
              rcases List.mem_cons.mp hzmem with h | h
              · exact h ▸ hmws
              · exact hallrest z h
            rw [hl z hz2] at hzs
            exact Bool.false_ne_true hzs
        | cons e u2 =>
          have he : pySpace e = false := head?_dropWhile_false pySpace rest e (by rw [hu]; rfl)
          have hsufu : (e :: u2) <:+ (c :: r) := by
            rw [← hu]
            exact ((List.dropWhile_suffix pySpace).trans (List.suffix_cons m rest)).trans hsufmr
          have hulast : ∀ a, (e :: u2).getLast? = some a → pySpace a = false := by
            intro a ha
            exact hl a (by rw [← getLast?_of_suffix hsufu (by simp), ha])
          have huhead : ∀ a, (e :: u2).head? = some a → pySpace a = false := by
            intro a ha
            simp at ha
            exact ha ▸ he
          have hlen : (e :: u2).length ≤ n := by
            have h1 : (e :: u2).length ≤ rest.length := by
              rw [← hu]
              exact (List.dropWhile_sublist pySpace).length_le
            have h2 : (m :: rest).length ≤ r.length := by
              rw [← hdv]
              exact (List.dropWhile_sublist notWS).length_le
            have h3 : (c :: r).length ≤ n + 1 := ht
            simp only [List.length_cons] at h1 h2 h3 ⊢
            omega
          have hih := ih (e :: u2) hlen huhead hulast (by simp)
          rw [← hu] at hih ⊢
          rw [hih, pySplitWS_dropWhileWS rest]
          have : pySplitWS (m :: rest) = pySplitWS rest := pySplitWS_cons_WS m rest hmws
          rw [← this]

/-- On a line that is nonempty after stripping, tab-splitting the
whitespace-collapsed stripped line yields the whitespace tokens. -/
theorem splitTab_collapseWS_strip (s : List Char) (h : stripChars s ≠ []) :
    splitTab (collapseWS (stripChars s)) = pySplitWS s := by
  rw [splitTab_collapseWS_aux (stripChars s).length (stripChars s) (Nat.le_refl _)
    (stripChars_head_false s) (stripChars_getLast_false s) h]
  exact pySplitWS_strip s

end Bridge

section StageA

/-- Fixed 16-column header of `1_format_RM.py`. -/
def headerNames : List String :=
  ["SW_score", "perc_div", "perc_del", "perc_ins", "query_sequence",
   "begin", "end", "left", "strand", "matching_repeat", "repeat_class_family",
   "begin_in_repeat", "end_in_repeat", "left_in_repeat", "ID", "optional_star"]

/-- Header line written to the main output: the 16 names tab-joined. -/
def headerLine : List Char := (String.intercalate "\t" headerNames).toList

/-- Body of the per-line processing of `format_repeatmasker_output` for the
main output: skip lines blank after strip, otherwise emit the stripped line
with whitespace runs collapsed to tabs. -/
def mainRow (line : List Char) : Option (List Char) :=
  let clean := stripChars line
  if clean = [] then none else some (collapseWS clean)

/-- Body of the per-line processing of `format_repeatmasker_output` for the
extra output: on a non-blank line, split the tab-converted line at tabs and,
when at least 11 columns result, emit columns 9 and 10 tab-joined. -/
def sideRow (line : List Char) : Option (List Char) :=
  let clean := stripChars line
  if clean = [] then none
  else
    let tabbed := collapseWS clean
    let columns := splitTab tabbed
    if 11 ≤ columns.length then
      some (columns.getD 9 [] ++ '\t' :: columns.getD 10 [])
    else none

/-- The two output files of Stage A, as lists of lines. -/
structure StageAOut where
  main : List (List Char)
  side : List (List Char)
deriving Repr, DecidableEq

/-- Embedding of `format_repeatmasker_output` of `scripts/1_format_RM.py`:
drop the first 3 lines, write the fixed header to the main output, then for
each remaining line emit its main row and (when eligible) its side row. -/
def format_repeatmasker_output (allLines : List (List Char)) : StageAOut :=
  let dataLines := allLines.drop 3
  { main := headerLine :: dataLines.filterMap mainRow
    side := dataLines.filterMap sideRow }

/-- The main rows are the tab-collapsed strips of the non-blank lines. -/
theorem filterMap_mainRow (ds : List (List Char)) :
    ds.filterMap mainRow =
      (ds.filter (fun l => !decide (stripChars l = []))).map
        (fun l => collapseWS (stripChars l)) := by
  induction ds with
  | nil => rfl
  | cons l ds2 ih =>
    by_cases h : stripChars l = []
    · rw [List.filterMap_cons, List.filter_cons]
      simp [mainRow, h, ih]
    · rw [List.filterMap_cons, List.filter_cons]
      simp [mainRow, h, ih]

/-- C1: Stage A's main output is exactly one 16-column tab-separated header
line followed by exactly one data line per line that is non-blank after
trimming among the input lines after the first 3 are removed, in input
order, each data line being the trimmed line with every maximal whitespace
run replaced by a single tab. -/
theorem stageA_main_characterization (allLines : List (List Char)) :
    (format_repeatmasker_output allLines).main =
      headerLine ::
        (((allLines.drop 3).filter (fun l => !decide (stripChars l = []))).map
          (fun l => collapseWS (stripChars l))) ∧
    splitTab headerLine = headerNames.map String.toList ∧
    headerNames.length = 16 := by
  refine ⟨?_, by decide, rfl⟩
  show headerLine :: (allLines.drop 3).filterMap mainRow = _
  rw [filterMap_mainRow]

/-- Claim-side description of the side output row: one row per line with at
least 11 whitespace-delimited tokens, holding token 9 and token 10
tab-joined (0-indexed). -/
def sideSpecRow (line : List Char) : Option (List Char) :=
  let toks := pySplitWS line
  if 11 ≤ toks.length then some (toks.getD 9 [] ++ '\t' :: toks.getD 10 []) else none

/-- The code's side row agrees with its token-level description. -/
theorem sideRow_eq_spec (l : List Char) : sideRow l = sideSpecRow l := by
  by_cases h : stripChars l = []
  · have h0 : pySplitWS l = [] := by
      rw [← pySplitWS_strip l, h]
      rfl
    simp [sideRow, sideSpecRow, h, h0]
  · have hb := splitTab_collapseWS_strip l h
    simp only [sideRow, sideSpecRow, h, if_false, hb]

/-- C2: Stage A's side output has exactly one row, namely tokens 9 and 10
tab-joined, for each data line with at least 11 whitespace-delimited
tokens, in input order; a non-blank data line with fewer than 11 tokens
produces no side row but still appears in the main output. -/
theorem stageA_side_characterization (allLines : List (List Char)) :
    (format_repeatmasker_output allLines).side = (allLines.drop 3).filterMap sideSpecRow ∧
    ∀ l ∈ allLines.drop 3, stripChars l ≠ [] → (pySplitWS l).length < 11 →
      collapseWS (stripChars l) ∈ (format_repeatmasker_output allLines).main := by
  constructor
  · show (allLines.drop 3).filterMap sideRow = _
    have h : sideRow = sideSpecRow := funext sideRow_eq_spec
    rw [h]
  · intro l hmem hne _
    show collapseWS (stripChars l) ∈ headerLine :: (allLines.drop 3).filterMap mainRow
    refine List.mem_cons_of_mem _ (List.mem_filterMap.mpr ⟨l, hmem, ?_⟩)
    simp [mainRow, hne]

/-- Concrete Stage A input used to instantiate `stageA_side_characterization`. -/
def sideWitnessInput : List (List Char) :=
  ["hdr one".toList, "hdr two".toList, "hdr three".toList,
   "12 1.2 3 0 seq1 1 10 (90) + rnd-1_family LINE/L1 1 10 (0) 1".toList,
   "p  q".toList]

/-- Witness for C2 at a concrete input: the side output matches the
token-level description, and the short 2-token line still reaches the main
output. -/
theorem stageA_side_characterization_witness :
    (format_repeatmasker_output sideWitnessInput).side =
      (sideWitnessInput.drop 3).filterMap sideSpecRow ∧
    collapseWS (stripChars ("p  q".toList)) ∈
      (format_repeatmasker_output sideWitnessInput).main :=
  ⟨(stageA_side_characterization sideWitnessInput).1,
   (stageA_side_characterization sideWitnessInput).2 ("p  q".toList)
     (by decide) (by decide) (by decide)⟩

/-- Re-processing a main-output row produces the same side row as the
original line: main rows are already stripped and tab-collapsed. -/
theorem mainRow_bind_sideRow (l : List Char) : (mainRow l).bind sideRow = sideRow l := by
  by_cases h : stripChars l = []
  · simp [mainRow, sideRow, h]
  · have hmr : mainRow l = some (collapseWS (stripChars l)) := by
      simp [mainRow, h]
    have ht_ne : collapseWS (stripChars l) ≠ [] := by
      cases hs : stripChars l with
      | nil => exact absurd hs h
      | cons c r => exact collapseWS_ne_nil c r
    have hh : ∀ a, (collapseWS (stripChars l)).head? = some a → pySpace a = false := by
      intro a ha
      cases hs : stripChars l with
      | nil => exact absurd hs h
      | cons c r =>
        have hc : pySpace c = false := stripChars_head_false l c (by rw [hs]; rfl)
        rw [hs, collapseWS_cons_notWS c r hc] at ha
        simp at ha
        exact ha ▸ hc
    have hl2 : ∀ a, (collapseWS (stripChars l)).getLast? = some a → pySpace a = false :=
      collapseWS_getLast_false (stripChars l).length (stripChars l) (Nat.le_refl _)
        (stripChars_getLast_false l)
    have hstr : stripChars (collapseWS (stripChars l)) = collapseWS (stripChars l) :=
      stripChars_eq_self _ hh hl2
    have hcol : collapseWS (collapseWS (stripChars l)) = collapseWS (stripChars l) :=
      collapseWS_idem _
    rw [hmr]
    show sideRow (collapseWS (stripChars l)) = sideRow l
    simp only [sideRow, hstr, hcol]
    rw [if_neg ht_ne, if_neg h]

/-- C3 (amended): rerunning Stage A on the first run's main output with the
header removed and three filler lines prepended (compensating the
unconditional removal of the first three input lines) reproduces the side
output of the first run exactly. -/
theorem stageA_rerun_side (allLines : List (List Char)) (a b c : List Char) :
    (format_repeatmasker_output
        (a :: b :: c :: ((format_repeatmasker_output allLines).main.drop 1))).side =
      (format_repeatmasker_output allLines).side := by
  show (((allLines.drop 3).filterMap mainRow).filterMap sideRow) =
    (allLines.drop 3).filterMap sideRow
  rw [List.filterMap_filterMap]
  have h : (fun x => (mainRow x).bind sideRow) = sideRow := funext mainRow_bind_sideRow
  rw [h]

/-- Concrete Stage A input with four eligible data rows, used to refute the
unamended rerun claim. -/
def rerunInput : List (List Char) :=
  ["hdr one".toList, "hdr two".toList, "hdr three".toList,
   "a b c d e f g h i m1 f1 x".toList,
   "a b c d e f g h i m2 f2 x".toList,
   "a b c d e f g h i m3 f3 x".toList,
   "a b c d e f g h i m4 f4 x".toList]

/-- C3 counterexample: feeding the first run's main output with only the
header line removed back into Stage A does not reproduce the side output,
because the rerun unconditionally discards the first three data rows. -/
theorem stageA_rerun_counterexample :
    (format_repeatmasker_output
        ((format_repeatmasker_output rerunInput).main.drop 1)).side ≠
      (format_repeatmasker_output rerunInput).side := by
  decide

end StageA

section StageB

/-- Character class `[^"\s]` of the motif regex: anything but a double
quote or whitespace. -/
def motifOk (c : Char) : Bool := !(c = '"' || pySpace c)

/-- Attempt to match the regex `Motif:([^"\s]+)` at the start of a string:
the literal `Motif:` followed by at least one admissible character; on
success return the greedy capture group. -/
def motifAt (s : List Char) : Option (List Char) :=
  match s with
  | 'M' :: 'o' :: 't' :: 'i' :: 'f' :: ':' :: r =>
    match r with
    | [] => none
    | d :: _ => if motifOk d then some (r.takeWhile motifOk) else none
  | _ => none

/-- Embedding of `re.search(r'Motif:([^"\s]+)', ·)`: the capture group of
the leftmost match, scanning start positions left to right. -/
def findMotif : List Char → Option (List Char)
  | [] => none
  | c :: rest =>
    match motifAt (c :: rest) with
    | some g => some g
    | none => findMotif rest

/-- Lookup in the motif-to-family mapping; the mapping is an association
list with the most recently inserted entry first, so `find?` returns the
binding of the last insertion, matching Python dict assignment. -/
def dictGet (m : List (List Char × List Char)) (k : List Char) : Option (List Char) :=
  (m.find? (fun p => decide (p.1 = k))).map Prod.snd

/-- Per-line body of the lookup construction of `add_family_column`: skip
lines blank after strip; accept lines whose (re-stripped) content splits
into exactly two tab-separated fields; skip (with a warning in the code)
every other line. -/
def lookupEntry (raw : List Char) : Option (List Char × List Char) :=
  let line := stripChars raw
  if line = [] then none
  else
    match splitTab (stripChars line) with
    | [m, f] => some (m, f)
    | _ => none

/-- Embedding of the lookup-dictionary construction loop of
`add_family_column`: each accepted line's binding is inserted, later
insertions shadowing earlier ones (the new entry is prepended and `dictGet`
reads front to back). -/
def buildLookup (lines : List (List Char)) : List (List Char × List Char) :=
  lines.foldl
    (fun acc raw =>
      match lookupEntry raw with
      | some e => e :: acc
      | none => acc) []

/-- The sentinel label appended when no motif is found or it is unmapped. -/
def unknownLabel : List Char := "UNKNOWN".toList

/-- Per-line body of the GFF annotation loop of `add_family_column`: drop
raw lines starting with `#`, lines blank after strip, and lines with fewer
than 9 tab-separated fields; otherwise emit the stripped line with the
resolved family (or `UNKNOWN`) appended, together with a flag recording
whether the motif was resolved (the `found_count` branch). -/
def processGffLine (lk : List (List Char × List Char)) (line : List Char) :
    Option (List Char × Bool) :=
  if line.head? = some '#' then none
  else
    let s := stripChars line
    if s = [] then none
    else
      let parts := splitTab s
      if parts.length < 9 then none
      else
        let attributes := parts.getD 8 []
        match findMotif attributes with
        | some m =>
          match dictGet lk m with
          | some fam => some (s ++ '\t' :: fam, true)
          | none => some (s ++ '\t' :: unknownLabel, false)
        | none => some (s ++ '\t' :: unknownLabel, false)

/-- Output file and the two diagnostic counters of Stage B. -/
structure StageBOut where
  out : List (List Char)
  found : Nat
  unknown : Nat
deriving Repr, DecidableEq

/-- The GFF annotation pass of `add_family_column` over all input lines. -/
def annotatePass (lk : List (List Char × List Char)) (gffLines : List (List Char)) :
    StageBOut :=
  { out := gffLines.filterMap (fun l => (processGffLine lk l).map Prod.fst)
    found := (gffLines.filterMap (processGffLine lk)).countP (fun r => r.2)
    unknown := (gffLines.filterMap (processGffLine lk)).countP (fun r => !r.2) }

/-- Embedding of `add_family_column` of `scripts/2_add_TEclass.py`: build
the lookup mapping; if it is empty, report an error and return before the
GFF file is read or the output file written (modelled as `none`);
otherwise run the annotation pass. -/
def add_family_column (familyLines gffLines : List (List Char)) : Option StageBOut :=
  let lk := buildLookup familyLines
  if lk = [] then none
  else some (annotatePass lk gffLines)

/-- C4: for a GFF line that is not a comment, non-blank after trim, has at
least 9 tab-separated fields, and whose 9th field yields a motif that is a
key of the mapping, Stage B writes the trimmed line plus a tab plus the
mapped family. -/
theorem stageB_mapped_motif (lk : List (List Char × List Char))
    (gffLines : List (List Char)) (l m fam : List Char)
    (hmem : l ∈ gffLines)
    (hcom : l.head? ≠ some '#')
    (hnb : stripChars l ≠ [])
    (hfields : 9 ≤ (splitTab (stripChars l)).length)
    (hmotif : findMotif ((splitTab (stripChars l)).getD 8 []) = some m)
    (hkey : dictGet lk m = some fam) :
    processGffLine lk l = some (stripChars l ++ '\t' :: fam, true) ∧
    stripChars l ++ '\t' :: fam ∈ (annotatePass lk gffLines).out := by
  have hp : processGffLine lk l = some (stripChars l ++ '\t' :: fam, true) := by
    simp only [processGffLine]
    rw [if_neg hcom, if_neg hnb, if_neg (Nat.not_lt.mpr hfields), hmotif]
    simp [hkey]
  refine ⟨hp, List.mem_filterMap.mpr ⟨l, hmem, ?_⟩⟩
  rw [hp]
  rfl

/-- Concrete lookup table from the spec scenario. -/
def hitLookupLines : List (List Char) := ["rnd-1_family\tLINE".toList]

/-- Concrete GFF line from the spec scenario. -/
def hitGffLine : List Char :=
  "chr1\trm\tmatch\t1\t10\t.\t+\t.\tTarget \"Motif:rnd-1_family\" 1 10".toList

/-- Witness for C4: the spec scenario line is annotated with `LINE`. -/
theorem stageB_mapped_motif_witness :
    processGffLine (buildLookup hitLookupLines) hitGffLine =
      some (stripChars hitGffLine ++ '\t' :: "LINE".toList, true) ∧
    stripChars hitGffLine ++ '\t' :: "LINE".toList ∈
      (annotatePass (buildLookup hitLookupLines) [hitGffLine]).out :=
  stageB_mapped_motif (buildLookup hitLookupLines) [hitGffLine] hitGffLine
    ("rnd-1_family".toList) ("LINE".toList)
    (by decide) (by decide) (by decide) (by decide) (by decide) (by decide)

/-- C5: for a qualifying GFF line whose attributes hold no motif token, or
whose motif is not a key of the mapping, Stage B writes the trimmed line
with a tab and `UNKNOWN` appended, and the unknown counter is incremented
for that line. -/
theorem stageB_unknown_motif (lk : List (List Char × List Char)) (l : List Char)
    (hcom : l.head? ≠ some '#')
    (hnb : stripChars l ≠ [])
    (hfields : 9 ≤ (splitTab (stripChars l)).length)
    (hmiss : ∀ m, findMotif ((splitTab (stripChars l)).getD 8 []) = some m →
      dictGet lk m = none) :
    processGffLine lk l = some (stripChars l ++ '\t' :: unknownLabel, false) ∧
    ∀ pre : List (List Char),
      (annotatePass lk (pre ++ [l])).unknown = (annotatePass lk pre).unknown + 1 := by
  have hp : processGffLine lk l = some (stripChars l ++ '\t' :: unknownLabel, false) := by
    simp only [processGffLine]
    rw [if_neg hcom, if_neg hnb, if_neg (Nat.not_lt.mpr hfields)]
    cases hm : findMotif ((splitTab (stripChars l)).getD 8 []) with
    | none => rfl
    | some m =>
      simp [hmiss m hm]
  refine ⟨hp, fun pre => ?_⟩
  simp only [annotatePass]
  rw [List.filterMap_append, List.countP_append]
  simp [hp]

/-- Concrete lookup table without the scenario's motif. -/
def missLookupLines : List (List Char) := ["other_family\tLINE".toList]

/-- Witness for C5: with a lookup lacking `rnd-1_family`, the scenario line
gets `UNKNOWN` and the unknown counter rises by one. -/
theorem stageB_unknown_motif_witness :
    processGffLine (buildLookup missLookupLines) hitGffLine =
      some (stripChars hitGffLine ++ '\t' :: unknownLabel, false) ∧
    (annotatePass (buildLookup missLookupLines) ([] ++ [hitGffLine])).unknown =
      (annotatePass (buildLookup missLookupLines) []).unknown + 1 := by
  have h := stageB_unknown_motif (buildLookup missLookupLines) hitGffLine
    (by decide) (by decide) (by decide) (by decide)
  exact ⟨h.1, h.2 []⟩

/-- Every line Stage B emits is the stripped input line with a tab and a
label appended. -/
theorem processGffLine_shape (lk : List (List Char × List Char)) (l x : List Char)
    (b : Bool) (h : processGffLine lk l = some (x, b)) :
    ∃ lab, x = stripChars l ++ '\t' :: lab := by
  simp only [processGffLine] at h
  split at h
  · exact absurd h (by simp)
  · split at h
    · exact absurd h (by simp)
    · split at h
      · exact absurd h (by simp)
      · split at h
        · split at h
          · simp at h
            exact ⟨_, h.1.symm⟩
          · simp at h
            exact ⟨_, h.1.symm⟩
        · simp at h
          exact ⟨_, h.1.symm⟩

/-- C6 (amended): every line Stage B writes is nonempty; every input line
whose first character is `#` produces no output line, as does every line
blank after trimming.  (The original claim that no output line begins with
`#` fails: the comment check runs on the untrimmed line, so a line with
whitespace before `#` can reach the output; see the counterexample.) -/
theorem stageB_output_never_comment_blank (lk : List (List Char × List Char))
    (gffLines : List (List Char)) :
    (∀ line ∈ (annotatePass lk gffLines).out, line ≠ []) ∧
    (∀ l : List Char, l.head? = some '#' → processGffLine lk l = none) ∧
    (∀ l : List Char, stripChars l = [] → processGffLine lk l = none) := by
  refine ⟨?_, ?_, ?_⟩
  · intro line hline
    obtain ⟨l, hmem, hl⟩ := List.mem_filterMap.mp hline
    cases hres : processGffLine lk l with
    | none => rw [hres] at hl; exact absurd hl (by simp)
    | some r =>
      rw [hres] at hl
      simp at hl
      obtain ⟨lab, hlab⟩ := processGffLine_shape lk l r.1 r.2 (by rw [hres])
      rw [← hl, hlab]
      simp
  · intro l h
    simp [processGffLine, h]
  · intro l h
    by_cases hc : l.head? = some '#'
    · simp [processGffLine, hc]
    · simp [processGffLine, hc, h]

/-- Lookup lines used in the Stage B examples: one entry. -/
def smallLookupLines : List (List Char) := ["m\tF".toList]

/-- A 9-field GFF line whose raw first character is whitespace and whose
first non-whitespace character is `#`. -/
def indentedCommentLine : List Char := " #\tb\tc\td\te\tf\tg\th\ti".toList

/-- C6 counterexample: on `indentedCommentLine`, Stage B emits exactly one
output line and that line begins with `#`, refuting the claim that no
output line begins with `#`. -/
theorem stageB_comment_in_output_counterexample :
    (add_family_column smallLookupLines [indentedCommentLine]).map
        (fun o => (o.out.length, (o.out.getD 0 []).head?)) =
      some (1, some '#') := by
  decide

/-- Witness for the amended C6 at concrete inputs: the comment line and the
blank line are dropped, and the produced output line is nonempty. -/
theorem stageB_output_never_comment_blank_witness :
    processGffLine (buildLookup smallLookupLines) ("#c".toList) = none ∧
    processGffLine (buildLookup smallLookupLines) ("  ".toList) = none ∧
    ("a\tb\tc\td\te\tf\tg\th\ti\tUNKNOWN".toList ≠ ([] : List Char)) := by
  have h := stageB_output_never_comment_blank (buildLookup smallLookupLines)
    ["a\tb\tc\td\te\tf\tg\th\ti".toList]
  refine ⟨h.2.1 ("#c".toList) rfl, h.2.2 ("  ".toList) (by decide), ?_⟩
  exact h.1 ("a\tb\tc\td\te\tf\tg\th\ti\tUNKNOWN".toList) (by decide)

/-- The label Stage B appends to a qualifying line, as a function of the
attributes field: the mapped family of the extracted motif, else `UNKNOWN`. -/
def labelOf (lk : List (List Char × List Char)) (attributes : List Char) : List Char :=
  match findMotif attributes with
  | some m => (dictGet lk m).getD unknownLabel
  | none => unknownLabel

/-- C10: the comment check runs on the raw line before trimming: a line of
leading whitespace followed by `#` is not dropped as a comment, and when
its trimmed form has at least 9 tab-separated fields it is written to the
output with an appended label, its first character being `#`. -/
theorem stageB_comment_check_untrimmed (lk : List (List Char × List Char))
    (ws rest : List Char) (hws : ws ≠ []) (hall : ∀ c ∈ ws, pySpace c = true)
    (hfields : 9 ≤ (splitTab (stripChars (ws ++ '#' :: rest))).length) :
    (stripChars (ws ++ '#' :: rest)).head? = some '#' ∧
    (processGffLine lk (ws ++ '#' :: rest)).map Prod.fst =
      some (stripChars (ws ++ '#' :: rest) ++
        '\t' :: labelOf lk ((splitTab (stripChars (ws ++ '#' :: rest))).getD 8 [])) := by
  have hhash : pySpace '#' = false := by decide
  have hdw : (ws ++ '#' :: rest).dropWhile pySpace = '#' :: rest := by
    rw [dropWhile_append_all pySpace ws ('#' :: rest) hall,
      List.dropWhile_cons_of_neg (by simp [hhash])]
  have hstr : stripChars (ws ++ '#' :: rest) = dropTrail ('#' :: rest) := by
    rw [stripChars, hdw]
  have hne : dropTrail ('#' :: rest) ≠ [] := by
    intro h0
    obtain ⟨sp, hdec, hsp⟩ := dropTrail_decomp ('#' :: rest)
    rw [h0, List.nil_append] at hdec
    have : pySpace '#' = true := hsp '#' (by rw [← hdec]; simp)
    rw [hhash] at this
    exact Bool.false_ne_true this
  have hhd : (dropTrail ('#' :: rest)).head? = some '#' := by
    obtain ⟨sp, hdec, hsp⟩ := dropTrail_decomp ('#' :: rest)
    cases hdt : dropTrail ('#' :: rest) with
    | nil => exact absurd hdt hne
    | cons y ys =>
      rw [hdt] at hdec
      have hy : '#' = y := by
        have := congrArg List.head? hdec
        simpa using this
      rw [← hy]
      rfl
  have hsne : stripChars (ws ++ '#' :: rest) ≠ [] := by
    rw [hstr]; exact hne
  have hcom : (ws ++ '#' :: rest).head? ≠ some '#' := by
    cases ws with
    | nil => exact absurd rfl hws
    | cons w0 ws2 =>
      have hw0 : pySpace w0 = true := hall w0 (by simp)
      simp only [List.cons_append, List.head?_cons]
      intro hcontra
      have hw : w0 = '#' := by
        injection hcontra
      rw [hw, hhash] at hw0
      exact Bool.false_ne_true hw0
  refine ⟨by rw [hstr]; exact hhd, ?_⟩
  simp only [processGffLine]
  rw [if_neg hcom, if_neg hsne, if_neg (Nat.not_lt.mpr hfields)]
  cases hm : findMotif ((splitTab (stripChars (ws ++ '#' :: rest))).getD 8 []) with
  | none =>
    simp only [labelOf, hm]
    rfl
  | some m =>
    cases hk : dictGet lk m with
    | none =>
      simp only [labelOf, hm, hk]
      rfl
    | some fam =>
      simp only [labelOf, hm, hk]
      rfl

/-- Witness for C10 at a concrete indented comment line with 9 fields. -/
theorem stageB_comment_check_untrimmed_witness :
    (stripChars ([' '] ++ '#' :: "\tb\tc\td\te\tf\tg\th\ti".toList)).head? = some '#' ∧
    (processGffLine (buildLookup smallLookupLines)
        ([' '] ++ '#' :: "\tb\tc\td\te\tf\tg\th\ti".toList)).map Prod.fst =
      some (stripChars ([' '] ++ '#' :: "\tb\tc\td\te\tf\tg\th\ti".toList) ++
        '\t' :: labelOf (buildLookup smallLookupLines)
          ((splitTab (stripChars
            ([' '] ++ '#' :: "\tb\tc\td\te\tf\tg\th\ti".toList))).getD 8 [])) :=
  stageB_comment_check_untrimmed (buildLookup smallLookupLines) [' ']
    ("\tb\tc\td\te\tf\tg\th\ti".toList) (by decide) (by decide) (by decide)

/-- Claim-side description of an accepted lookup line: its doubly-stripped
content splits into exactly two tab-separated fields, which become the
motif and the family. -/
def twoFieldEntry (raw : List Char) : Option (List Char × List Char) :=
  let fields := splitTab (stripChars (stripChars raw))
  if fields.length = 2 then some (fields.getD 0 [], fields.getD 1 []) else none

/-- The code's per-line lookup acceptance agrees with its two-field
description (blank lines are covered because a blank strips to `[]`, which
splits into one empty field, not two). -/
theorem lookupEntry_eq_twoField (raw : List Char) :
    lookupEntry raw = twoFieldEntry raw := by
  by_cases h : stripChars raw = []
  · have h2 : stripChars ([] : List Char) = [] := rfl
    simp [lookupEntry, twoFieldEntry, h, h2, splitTab]
  · cases hf : splitTab (stripChars (stripChars raw)) with
    | nil => exact absurd hf (splitTab_ne_nil _)
    | cons w ws =>
      cases ws with
      | nil => simp [lookupEntry, twoFieldEntry, h, hf]
      | cons w2 ws2 =>
        cases ws2 with
        | nil => simp [lookupEntry, twoFieldEntry, h, hf]
        | cons w3 ws3 => simp [lookupEntry, twoFieldEntry, h, hf]

/-- The built dictionary is the reversed list of accepted entries. -/
theorem buildLookup_eq (lines : List (List Char)) :
    buildLookup lines = (lines.filterMap lookupEntry).reverse := by
  have haux : ∀ (ls : List (List Char)) (acc : List (List Char × List Char)),
      ls.foldl (fun acc raw =>
        match lookupEntry raw with
        | some e => e :: acc
        | none => acc) acc = (ls.filterMap lookupEntry).reverse ++ acc := by
    intro ls
    induction ls with
    | nil => intro acc; simp
    | cons raw rest ih =>
      intro acc
      rw [List.foldl_cons, List.filterMap_cons]
      cases he : lookupEntry raw with
      | none => simp only [he]; exact ih acc
      | some e =>
        simp only [he, List.reverse_cons, List.append_assoc]
        rw [ih (e :: acc)]
        rfl
  exact (haux lines []).trans (by rw [List.append_nil])

/-- Reading the reversed entry list through `find?` returns the value of
the last matching entry. -/
theorem dictGet_reverse (xs : List (List Char × List Char)) (k : List Char) :
    dictGet xs.reverse k =
      (xs.filterMap (fun e => if e.1 = k then some e.2 else none)).getLast? := by
  induction xs with
  | nil => rfl
  | cons e xs2 ih =>
    rw [List.reverse_cons]
    unfold dictGet
    rw [List.find?_append]
    by_cases he : e.1 = k
    · have hfe : List.find? (fun p => decide (p.1 = k)) [e] = some e := by
        simp [List.find?, he]
      rw [List.filterMap_cons]
      simp only [he, if_true]
      cases h2 : List.find? (fun p => decide (p.1 = k)) xs2.reverse with
      | some q =>
        have hIH : some q.2 = (xs2.filterMap (fun e => if e.1 = k then some e.2 else none)).getLast? := by
          rw [← ih]
          unfold dictGet
          rw [h2]
          rfl
        cases hfm : xs2.filterMap (fun e => if e.1 = k then some e.2 else none) with
        | nil => rw [hfm] at hIH; exact absurd hIH.symm (by simp)
        | cons v vs =>
          rw [hfm] at hIH
          rw [List.getLast?_cons_cons]
          simp only [Option.or]
          simpa using hIH
      | none =>
        have hIH : (none : Option (List Char)) = (xs2.filterMap (fun e => if e.1 = k then some e.2 else none)).getLast? := by
          rw [← ih]
          unfold dictGet
          rw [h2]
          rfl
        have hfm : xs2.filterMap (fun e => if e.1 = k then some e.2 else none) = [] := by
          cases hfm2 : xs2.filterMap (fun e => if e.1 = k then some e.2 else none) with
          | nil => rfl
          | cons v vs =>
            rw [hfm2] at hIH
            exact absurd hIH (by simp [List.getLast?_cons])
        rw [hfm]
        simp only [Option.or, h2, hfe]
        rfl
    · have hfe : List.find? (fun p => decide (p.1 = k)) [e] = none := by
        simp [List.find?, he]
      rw [List.filterMap_cons]
      simp only [he, if_false]
      rw [hfe]
      cases h2 : List.find? (fun p => decide (p.1 = k)) xs2.reverse with
      | some q =>
        simp only [Option.or]
        rw [← ih]
        unfold dictGet
        rw [h2]
      | none =>
        simp only [Option.or]
        rw [← ih]
        unfold dictGet
        rw [h2]

/-- C7: the lookup construction accepts exactly the lines splitting into
two tab-separated fields (blank lines and malformed lines are skipped),
producing one entry per accepted line, and a key bound by several accepted
lines resolves to the family of the last such line. -/
theorem stageB_lookup_characterization (lines : List (List Char)) :
    buildLookup lines = (lines.filterMap twoFieldEntry).reverse ∧
    ∀ k, dictGet (buildLookup lines) k =
      ((lines.filterMap twoFieldEntry).filterMap
        (fun e => if e.1 = k then some e.2 else none)).getLast? := by
  have hfm : List.filterMap lookupEntry lines = List.filterMap twoFieldEntry lines := by
    have h : lookupEntry = twoFieldEntry := funext lookupEntry_eq_twoField
    rw [h]
  constructor
  · rw [buildLookup_eq, hfm]
  · intro k
    rw [buildLookup_eq, hfm, dictGet_reverse]

/-- C8: when the lookup construction yields no entries, `add_family_column`
aborts with an error before the GFF input is consulted: the result is the
error value and is independent of the GFF content, so neither the GFF file
nor the output file is touched. -/
theorem stageB_empty_lookup_aborts (familyLines gffLines : List (List Char))
    (h : buildLookup familyLines = []) :
    add_family_column familyLines gffLines = none ∧
    ∀ gffLines2, add_family_column familyLines gffLines2 =
      add_family_column familyLines gffLines := by
  refine ⟨by simp [add_family_column, h], fun gffLines2 => ?_⟩
  simp [add_family_column, h]

/-- Lookup lines whose only line has three fields, hence zero entries. -/
def malformedLookupLines : List (List Char) := ["a\tb\tc".toList]

/-- Witness for C8: a lookup file with only a malformed line yields an
empty mapping, and the stage aborts identically for two different GFF
inputs. -/
theorem stageB_empty_lookup_aborts_witness :
    add_family_column malformedLookupLines ["chr1\tx".toList] = none ∧
    add_family_column malformedLookupLines ["other line".toList] =
      add_family_column malformedLookupLines ["chr1\tx".toList] :=
  ⟨(stageB_empty_lookup_aborts malformedLookupLines ["chr1\tx".toList] (by decide)).1,
   (stageB_empty_lookup_aborts malformedLookupLines ["chr1\tx".toList] (by decide)).2
     ["other line".toList]⟩

end StageB
